import Mathlib

/-!
Verification of the call-graph construction and stack-bound propagation engine
of `cargo-call-stack` (src/main.rs), as a shallow embedding in Lean 4.

The embedding mirrors the Rust source:
* `Local` / `Max` and their arithmetic (`Into<Max>`, `Add<Local>`, `Add<Max>`,
  `fn max`, `fn max_of`);
* the bound propagator of `run` (both the SCC branch and the acyclic
  reverse-topological branch), over an abstract graph given by a local-usage
  map and a successor map;
* the local-usage reconciler / cross-check block of `run` (an `assert_eq!`
  failure is modelled as `Except.error`, since it aborts the process);
* the symbol & alias table construction (tag filtering, canonical names);
* the indirect-call resolver (synthetic `sig*` nodes, `?` sentinel);
* `fn dehash` and the name-shortener pass;
* the sort key / printed value of the `top` output.

Machine integers (`u64`) are modelled as `Nat`; the analysed programs are far
from overflow so the source's unchecked additions agree with `Nat` addition.
HashMap iteration is modelled by list folds; `expect`/indexing panics are
modelled by `Option.getD` defaults that are provably never reached under the
stated validity hypotheses (or by `Except.error` where the abort itself is the
subject of a claim).
-/

set_option maxHeartbeats 1000000

namespace CallStack

/-- Local stack usage of one function: `enum Local` (src/main.rs lines 1066-1070). -/
inductive Local where
  | Exact : Nat → Local
  | Unknown : Local
deriving DecidableEq, Repr

/-- Transitive worst-case stack bound: `enum Max` (src/main.rs lines 1090-1094).
Note the type has no `Unknown` constructor. -/
inductive Max where
  | Exact : Nat → Max
  | LowerBound : Nat → Max
deriving DecidableEq, Repr

/-- `impl Into<Max> for Local` (src/main.rs lines 1081-1088):
`Exact n ↦ Exact n`, `Unknown ↦ LowerBound 0`. -/
def Local.into : Local → Max
  | .Exact n => .Exact n
  | .Unknown => .LowerBound 0

/-- `impl ops::Add<Local> for Max` (src/main.rs lines 1096-1107). -/
def Max.addLocal : Max → Local → Max
  | .Exact lhs, .Exact rhs => .Exact (lhs + rhs)
  | .Exact lhs, .Unknown => .LowerBound lhs
  | .LowerBound lhs, .Exact rhs => .LowerBound (lhs + rhs)
  | .LowerBound lhs, .Unknown => .LowerBound lhs

/-- `impl ops::Add<Max> for Max` (src/main.rs lines 1109-1120). -/
def Max.add : Max → Max → Max
  | .Exact lhs, .Exact rhs => .Exact (lhs + rhs)
  | .Exact lhs, .LowerBound rhs => .LowerBound (lhs + rhs)
  | .LowerBound lhs, .Exact rhs => .LowerBound (lhs + rhs)
  | .LowerBound lhs, .LowerBound rhs => .LowerBound (lhs + rhs)

/-- `fn max` (src/main.rs lines 1126-1133): componentwise `cmp::max`,
`Exact` only when both operands are `Exact`. -/
def max : Max → Max → Max
  | .Exact lhs, .Exact rhs => .Exact (Nat.max lhs rhs)
  | .Exact lhs, .LowerBound rhs => .LowerBound (Nat.max lhs rhs)
  | .LowerBound lhs, .Exact rhs => .LowerBound (Nat.max lhs rhs)
  | .LowerBound lhs, .LowerBound rhs => .LowerBound (Nat.max lhs rhs)

/-- `fn max_of` (src/main.rs lines 1122-1124):
`iter.next().map(|first| iter.fold(first, max))`. -/
def max_of : List Max → Option Max
  | [] => none
  | first :: rest => some (rest.foldl max first)

/-- The integer carried by a bound (the payload `match` used in `top`,
src/main.rs lines 962-965). -/
def Max.val : Max → Nat
  | .Exact n => n
  | .LowerBound n => n

/-- Helper predicate: the bound is a `LowerBound`. -/
def Max.isLB : Max → Bool
  | .Exact _ => false
  | .LowerBound _ => true

theorem isLB_max (a b : Max) : (max a b).isLB = (a.isLB || b.isLB) := by
  cases a <;> cases b <;> rfl

theorem isLB_add (a b : Max) : (a.add b).isLB = (a.isLB || b.isLB) := by
  cases a <;> cases b <;> rfl

theorem isLB_addLocal (a : Max) (l : Local) :
    (a.addLocal l).isLB = (a.isLB || (l == Local.Unknown)) := by
  cases a <;> cases l <;> rfl

theorem isLB_foldl_max (a : Max) (l : List Max) :
    (l.foldl max a).isLB = (a.isLB || l.any Max.isLB) := by
  induction l generalizing a with
  | nil => simp
  | cons x xs ih =>
      simp only [List.foldl_cons, List.any_cons, ih, isLB_max, Bool.or_assoc]

theorem max_of_contaminated {l : List Max} {x : Max} (hx : x ∈ l)
    (hlb : x.isLB = true) : ∃ m, max_of l = some m ∧ m.isLB = true := by
  cases l with
  | nil => cases hx
  | cons first rest =>
      refine ⟨rest.foldl max first, rfl, ?_⟩
      rcases List.mem_cons.mp hx with h | h
      · subst h; simp [isLB_foldl_max, hlb]
      · rw [isLB_foldl_max, Bool.or_eq_true]
        exact Or.inr (List.any_eq_true.mpr ⟨x, h, hlb⟩)

theorem max_of_isSome {l : List Max} (h : l ≠ []) : (max_of l).isSome = true := by
  cases l with
  | nil => exact absurd rfl h
  | cons a b => rfl

theorem isLB_iff_not_exact (m : Max) : m.isLB = true ↔ ∀ n, m ≠ Max.Exact n := by
  cases m <;> simp [Max.isLB]

theorem isLB_iff_lowerBound (m : Max) : m.isLB = true ↔ ∃ n, m = Max.LowerBound n := by
  cases m <;> simp [Max.isLB]

/-- C2: Bound arithmetic: adding two bounds yields `Exact` exactly when both
operands are `Exact` and otherwise yields `LowerBound`; converting an `Unknown`
local usage into a bound yields `LowerBound 0`; and the max of two bounds is
`Exact` exactly when both operands are `Exact`, carrying the larger integer in
every case. -/
theorem C2_bound_arithmetic :
    (∀ a b : Max, (∃ n, a.add b = Max.Exact n) ↔
        ((∃ n, a = Max.Exact n) ∧ (∃ n, b = Max.Exact n))) ∧
    (∀ a b : Max, ¬((∃ n, a = Max.Exact n) ∧ (∃ n, b = Max.Exact n)) →
        ∃ n, a.add b = Max.LowerBound n) ∧
    Local.Unknown.into = Max.LowerBound 0 ∧
    (∀ a b : Max,
        ((∃ n, max a b = Max.Exact n) ↔
          ((∃ n, a = Max.Exact n) ∧ (∃ n, b = Max.Exact n))) ∧
        (max a b).val = Nat.max a.val b.val) := by
  refine ⟨?_, ?_, rfl, ?_⟩
  · intro a b
    cases a <;> cases b <;> simp [Max.add]
  · intro a b h
    cases a <;> cases b <;> simp_all [Max.add]
  · intro a b
    cases a <;> cases b <;> simp [CallStack.max, Max.val]

/-- Sort key and printed per-function value in `top` (src/main.rs lines
971-983): `if let Local::Exact(n) = local { n } else { 0 }`. The same
expression is used both as the descending sort key and as the printed value. -/
def topVal : Local → Nat
  | .Exact n => n
  | .Unknown => 0

/-- The comparator passed to `sort_by` in `top` (src/main.rs lines 971-975):
`b.cmp(&a)` on the keys, i.e. descending order. -/
def topCmp (a b : Local) : Ordering := compare (topVal b) (topVal a)

/-- One row of the flat table (src/main.rs lines 977-989):
`"<local> <demangled-name>"`.  Quote-escaping by `Escaper` is the identity on
names without a `"` character and is not modelled. -/
def topLine (dem : String → String) (name : String) (l : Local) : String :=
  toString (topVal l) ++ " " ++ dem name

/-- C10: In the flat-table (`top`) output, a node whose local usage is
`Unknown` is printed with per-function value 0 and is ordered in the
descending sort as if its local usage were exactly 0 bytes, making its row
and its sort-comparator behaviour identical to those of a function with
`Exact 0` local usage. -/
theorem C10_top_unknown_as_zero :
    topVal Local.Unknown = 0 ∧
    topVal Local.Unknown = topVal (Local.Exact 0) ∧
    (∀ dem name, topLine dem name Local.Unknown = topLine dem name (Local.Exact 0)) ∧
    (∀ x, topCmp Local.Unknown x = topCmp (Local.Exact 0) x ∧
          topCmp x Local.Unknown = topCmp x (Local.Exact 0)) := by
  refine ⟨rfl, rfl, fun dem name => rfl, fun x => ⟨rfl, rfl⟩⟩

/-! ## The call graph and the bound propagator

`run` (src/main.rs lines 791-871) propagates bounds over the petgraph
`DiGraph`.  The graph is modelled abstractly by its per-node local usage
(`g[node].local`) and its outgoing-neighbor lists
(`g.neighbors_directed(node, Direction::Outgoing)`); nodes are `Nat` indices.
The mutable `max` field of the nodes is modelled as a separate map
`Nat → Option Max`, initially `fun _ => none`. -/

/-- The annotated call graph, as seen by the bound propagator. -/
structure Graph where
  localOf : Nat → Local
  succs : Nat → List Nat

/-- `is_a_cycle` (src/main.rs lines 801-803): the SCC has more than one node,
or its single node has a self edge. -/
def isACycle (g : Graph) (scc : List Nat) : Bool :=
  decide (1 < scc.length) || (g.succs (scc.headD 0)).contains (scc.headD 0)

/-- The promotion applied to the cycle's own contribution (src/main.rs lines
811-816): an `Exact` nonzero value becomes a `LowerBound`; `Exact 0` and
`LowerBound` values are unchanged. -/
def promote : Max → Max
  | .Exact n => if n ≠ 0 then .LowerBound n else .Exact n
  | .LowerBound n => .LowerBound n

/-- `scc_local` of the SCC loop (src/main.rs lines 808-816): the max of the
members' local usages cast to bounds, then promoted.  The source's
`.expect("UNREACHABLE")` (the SCC is nonempty) is modelled by
`Option.getD (Max.Exact 0)`; for a nonempty SCC the default is never
consulted. -/
def sccLocal (g : Graph) (scc : List Nat) : Max :=
  promote ((max_of (scc.map fun i => (g.localOf i).into)).getD (Max.Exact 0))

/-- `neighbors_max` of the cycle case (src/main.rs lines 818-828): the max of
the bounds of neighbors outside the component, over all edges leaving it.
The source's `.expect("UNREACHABLE")` on a neighbor's bound is modelled by
`Option.getD (Max.Exact 0)`; under the reverse-topological validity
hypotheses used below every such bound is present. -/
def sccNeighborsMax (g : Graph) (B : Nat → Option Max) (scc : List Nat) :
    Option Max :=
  max_of (scc.flatMap fun i =>
    (g.succs i).filterMap fun nb =>
      if scc.contains nb then none else some ((B nb).getD (Max.Exact 0)))

/-- `neighbors_max` of the acyclic / singleton case (src/main.rs lines
841-844 and 860-863): the max of the bounds of all outgoing neighbors. -/
def nodeNeighborsMax (g : Graph) (B : Nat → Option Max) (v : Nat) :
    Option Max :=
  max_of ((g.succs v).map fun nb => (B nb).getD (Max.Exact 0))

/-- One iteration of the SCC loop of `run` (src/main.rs lines 798-853),
updating the bounds map `B`. -/
def processScc (g : Graph) (B : Nat → Option Max) (scc : List Nat) :
    Nat → Option Max :=
  if isACycle g scc then
    -- lines 805-837: a true cycle
    fun v =>
      if scc.contains v then
        some (match sccNeighborsMax g B scc with
          | some m => m.add (sccLocal g scc)
          | none => sccLocal g scc)
      else B v
  else
    -- lines 838-852: a singleton SCC without a self loop
    fun v =>
      if v = scc.headD 0 then
        some (match nodeNeighborsMax g B (scc.headD 0) with
          | some m => m.addLocal (g.localOf (scc.headD 0))
          | none => (g.localOf (scc.headD 0)).into)
      else B v

/-- The SCC branch of the propagator (src/main.rs lines 794-853):
`kosaraju_scc` yields the components in reverse topological order and the
loop processes them in that order. -/
def propagate (g : Graph) (sccs : List (List Nat)) : Nat → Option Max :=
  sccs.foldl (processScc g) (fun _ => none)

/-- One step of the acyclic branch of the propagator (src/main.rs lines
856-870): a single node visited by `Topo::new(Reversed(&g))`. -/
def processNode (g : Graph) (B : Nat → Option Max) (v : Nat) :
    Nat → Option Max :=
  fun w =>
    if w = v then
      some (match nodeNeighborsMax g B v with
        | some m => m.addLocal (g.localOf v)
        | none => (g.localOf v).into)
    else B w

/-- The acyclic branch of the propagator (src/main.rs lines 854-871): fold
over the reverse topological visit order. -/
def propagateTopo (g : Graph) (order : List Nat) : Nat → Option Max :=
  order.foldl (processNode g) (fun _ => none)

/-- Validity of an SCC list in reverse topological order, with `done` the
members of already-processed components: each component is nonempty, every
edge out of a component stays in the component or goes to an
already-processed one, and components are disjoint from what was already
processed.  This is exactly what petgraph's `kosaraju_scc` guarantees for the
loop of src/main.rs line 798. -/
def validSccs (g : Graph) : List Nat → List (List Nat) → Bool
  | _, [] => true
  | done, scc :: rest =>
    !scc.isEmpty &&
    scc.all (fun v => (g.succs v).all fun nb => scc.contains nb || done.contains nb) &&
    scc.all (fun v => !done.contains v) &&
    validSccs g (done ++ scc) rest

/-- Validity of a node order for the acyclic branch, with `done` the
already-visited nodes: each node is visited once, after all of its
successors.  This is what `Topo::new(Reversed(&g))` guarantees on an acyclic
graph. -/
def topoOk (g : Graph) : List Nat → List Nat → Bool
  | _, [] => true
  | done, v :: rest =>
    !done.contains v &&
    (g.succs v).all (fun nb => done.contains nb) &&
    topoOk g (done ++ [v]) rest

/-- Reachability through zero or more call edges. -/
inductive Reaches (g : Graph) : Nat → Nat → Prop
  | refl (a : Nat) : Reaches g a a
  | step {a b c : Nat} : b ∈ g.succs a → Reaches g b c → Reaches g a c

/-- The three-node chain of the spec's scenario 1:
`a` (node 0, local 8) calls `b` (node 1, local 16) calls `c` (node 2, local 4). -/
def chainG : Graph where
  localOf := fun i => if i = 0 then .Exact 8 else if i = 1 then .Exact 16 else .Exact 4
  succs := fun i => if i = 0 then [1] else if i = 1 then [2] else []

/-- The two-node zero-local cycle of the spec's scenario 5:
`a` (node 0, local 0) → `b` (node 1, local 0) → `a`. -/
def cyc0G : Graph where
  localOf := fun _ => .Exact 0
  succs := fun i => if i = 0 then [1] else if i = 1 then [0] else []

/-- The unknown-leaf graph of the spec's scenario 3:
`a` (node 0, local 8) calls `x` (node 1, local `Unknown`). -/
def unknownLeafG : Graph where
  localOf := fun i => if i = 0 then .Exact 8 else .Unknown
  succs := fun i => if i = 0 then [1] else []

/-! ## Soundness and completeness of the propagator -/

theorem headD_mem {l : List Nat} (h : l ≠ []) : l.headD 0 ∈ l := by
  cases l with
  | nil => exact absurd rfl h
  | cons a t => exact List.mem_cons_self a t

theorem contains_true_of_mem {α : Type} [BEq α] [LawfulBEq α] {l : List α}
    {a : α} (h : a ∈ l) : l.contains a = true := by simp [h]

theorem contains_false_of_not_mem {α : Type} [BEq α] [LawfulBEq α]
    {l : List α} {a : α} (h : a ∉ l) : l.contains a = false := by simp [h]

theorem mem_of_contains_true {α : Type} [BEq α] [LawfulBEq α] {l : List α}
    {a : α} (h : l.contains a = true) : a ∈ l := by simpa using h

theorem not_mem_of_contains_false {α : Type} [BEq α] [LawfulBEq α]
    {l : List α} {a : α} (h : l.contains a = false) : a ∉ l := by
  simpa using h

theorem isLB_promote {m : Max} (h : m.isLB = true) : (promote m).isLB = true := by
  cases m with
  | Exact n => simp [Max.isLB] at h
  | LowerBound n => rfl

/-- If an SCC is not classified as a cycle, it is a singleton without a self
loop. -/
theorem singleton_of_not_cycle {g : Graph} {scc : List Nat} (hne : scc ≠ [])
    (hc : isACycle g scc = false) :
    scc = [scc.headD 0] ∧ scc.headD 0 ∉ g.succs (scc.headD 0) := by
  have hc' := hc
  unfold isACycle at hc'
  rw [Bool.or_eq_false_iff] at hc'
  obtain ⟨hlen, hself⟩ := hc'
  have hlen' : scc.length ≤ 1 := by
    by_contra h
    simp [Nat.lt_of_not_le h] at hlen
  constructor
  · cases scc with
    | nil => exact absurd rfl hne
    | cons a t =>
        cases t with
        | nil => rfl
        | cons b u => simp at hlen'
  · intro hmem
    exact absurd (contains_true_of_mem hmem) (by rw [hself]; simp)

/-- The invariant maintained by the SCC loop over the set `done` of members of
already-processed components: every processed node has its bound set; a
processed node with `Unknown` local usage has a `LowerBound` bound; and every
edge out of a processed node goes to a processed node and propagates
`LowerBound` contamination backwards. -/
def Inv (g : Graph) (done : List Nat) (B : Nat → Option Max) : Prop :=
  (∀ v ∈ done, (B v).isSome = true) ∧
  (∀ v ∈ done, g.localOf v = Local.Unknown →
      ∃ k, B v = some (Max.LowerBound k)) ∧
  (∀ v ∈ done, ∀ nb ∈ g.succs v, nb ∈ done ∧
      ((∃ k, B nb = some (Max.LowerBound k)) →
        ∃ k, B v = some (Max.LowerBound k)))

theorem processScc_notMem {g : Graph} {B : Nat → Option Max} {scc : List Nat}
    (hne : scc ≠ []) {v : Nat} (hv : v ∉ scc) :
    processScc g B scc v = B v := by
  unfold processScc
  by_cases hc : isACycle g scc = true
  · rw [if_pos hc, if_neg]
    intro h
    exact hv (mem_of_contains_true h)
  · rw [if_neg hc, if_neg]
    intro h
    exact hv (h ▸ headD_mem hne)

theorem processScc_cycle {g : Graph} {B : Nat → Option Max} {scc : List Nat}
    (hc : isACycle g scc = true) {v : Nat} (hv : v ∈ scc) :
    processScc g B scc v =
      some (match sccNeighborsMax g B scc with
        | some m => m.add (sccLocal g scc)
        | none => sccLocal g scc) := by
  unfold processScc
  rw [if_pos hc, if_pos (contains_true_of_mem hv)]

theorem processScc_single {g : Graph} {B : Nat → Option Max} {scc : List Nat}
    (hc : isACycle g scc = false) :
    processScc g B scc (scc.headD 0) =
      some (match nodeNeighborsMax g B (scc.headD 0) with
        | some m => m.addLocal (g.localOf (scc.headD 0))
        | none => (g.localOf (scc.headD 0)).into) := by
  unfold processScc
  rw [if_neg (by rw [hc]; simp), if_pos rfl]

theorem processScc_inv {g : Graph} {done : List Nat} {B : Nat → Option Max}
    {scc : List Nat} (hne : scc ≠ [])
    (hclosure : ∀ v ∈ scc, ∀ nb ∈ g.succs v, nb ∈ scc ∨ nb ∈ done)
    (hdisj : ∀ v ∈ scc, v ∉ done)
    (hinv : Inv g done B) :
    Inv g (done ++ scc) (processScc g B scc) := by
  obtain ⟨hsome, hunk, hedge⟩ := hinv
  have hdone_not_scc : ∀ v ∈ done, v ∉ scc := fun v hv hv' => hdisj v hv' hv
  by_cases hc : isACycle g scc = true
  · -- the cycle branch
    set val : Max := (match sccNeighborsMax g B scc with
      | some m => m.add (sccLocal g scc)
      | none => sccLocal g scc) with hval
    have hmem_eq : ∀ v ∈ scc, processScc g B scc v = some val := by
      intro v hv
      rw [processScc_cycle hc hv, hval]
    have hkeep : ∀ v ∈ done, processScc g B scc v = B v := fun v hv =>
      processScc_notMem hne (hdone_not_scc v hv)
    -- contamination of the shared value by an inside Unknown
    have hval_lb_of_unknown : ∀ v ∈ scc, g.localOf v = Local.Unknown →
        val.isLB = true := by
      intro v hv hu
      have hmem : (Local.Unknown).into ∈ scc.map fun i => (g.localOf i).into := by
        rw [List.mem_map]
        exact ⟨v, hv, by rw [hu]⟩
      obtain ⟨m, hm, hmlb⟩ := max_of_contaminated hmem (by rfl)
      have hL : (sccLocal g scc).isLB = true := by
        unfold sccLocal
        rw [hm]
        exact isLB_promote hmlb
      rw [hval]
      cases hnb : sccNeighborsMax g B scc with
      | none => simpa using hL
      | some m' => simp only [isLB_add, hL, Bool.or_true]
    -- contamination of the shared value by an outside LowerBound neighbor
    have hval_lb_of_nb : ∀ v ∈ scc, ∀ nb ∈ g.succs v, nb ∉ scc →
        (∃ k, B nb = some (Max.LowerBound k)) → val.isLB = true := by
      intro v hv nb hnb hnbout ⟨k, hk⟩
      have hx : Max.LowerBound k ∈ scc.flatMap fun i =>
          (g.succs i).filterMap fun nb' =>
            if scc.contains nb' then none else some ((B nb').getD (Max.Exact 0)) := by
        rw [List.mem_flatMap]
        refine ⟨v, hv, ?_⟩
        rw [List.mem_filterMap]
        refine ⟨nb, hnb, ?_⟩
        simp [hnbout, hk]
      obtain ⟨m, hm, hmlb⟩ := max_of_contaminated hx (by rfl)
      have hm' : sccNeighborsMax g B scc = some m := hm
      rw [hval, hm']
      simp only [isLB_add, hmlb, Bool.true_or]
    refine ⟨?_, ?_, ?_⟩
    · intro v hv
      rcases List.mem_append.mp hv with h | h
      · rw [hkeep v h]; exact hsome v h
      · rw [hmem_eq v h]; rfl
    · intro v hv hu
      rcases List.mem_append.mp hv with h | h
      · rw [hkeep v h]; exact hunk v h hu
      · rw [hmem_eq v h]
        have := hval_lb_of_unknown v h hu
        obtain ⟨n, hn⟩ := (isLB_iff_lowerBound val).mp this
        exact ⟨n, by rw [hn]⟩
    · intro v hv nb hnb
      rcases List.mem_append.mp hv with h | h
      · obtain ⟨hnbdone, himp⟩ := hedge v h nb hnb
        refine ⟨List.mem_append.mpr (Or.inl hnbdone), ?_⟩
        rw [hkeep v h, hkeep nb hnbdone]
        exact himp
      · rcases hclosure v h nb hnb with hin | hout
        · refine ⟨List.mem_append.mpr (Or.inr hin), ?_⟩
          intro hlb
          rw [hmem_eq nb hin] at hlb
          rw [hmem_eq v h]
          exact hlb
        · refine ⟨List.mem_append.mpr (Or.inl hout), ?_⟩
          intro hlb
          rw [hkeep nb hout] at hlb
          have hnbnotscc : nb ∉ scc := hdone_not_scc nb hout
          have := hval_lb_of_nb v h nb hnb hnbnotscc hlb
          rw [hmem_eq v h]
          obtain ⟨n, hn⟩ := (isLB_iff_lowerBound val).mp this
          exact ⟨n, by rw [hn]⟩
  · -- the singleton branch
    have hc' : isACycle g scc = false := by
      rwa [Bool.not_eq_true] at hc
    obtain ⟨hsing, hnoself⟩ := singleton_of_not_cycle hne hc'
    set first := scc.headD 0 with hfirst
    set val : Max := (match nodeNeighborsMax g B first with
      | some m => m.addLocal (g.localOf first)
      | none => (g.localOf first).into) with hval
    have hfirst_eq : processScc g B scc first = some val := by
      rw [hval, hfirst]
      exact processScc_single hc'
    have hkeep : ∀ w, w ≠ first → processScc g B scc w = B w := by
      intro w hw
      unfold processScc
      rw [if_neg (by rw [hc']; simp), if_neg (fun h => hw (by rw [hfirst]; exact h))]
    have hfirst_mem : first ∈ scc := by
      rw [hfirst]
      exact headD_mem hne
    have hmem_first : ∀ v ∈ scc, v = first := by
      intro v hv; rw [hsing] at hv; simpa using hv
    have hfirst_not_done : first ∉ done := hdisj first hfirst_mem
    have hsucc_done : ∀ nb ∈ g.succs first, nb ∈ done := by
      intro nb hnb
      rcases hclosure first hfirst_mem nb hnb with hin | hout
      · exact absurd (hmem_first nb hin) (fun h => hnoself (h ▸ hnb))
      · exact hout
    have hval_lb_of_nb : ∀ nb ∈ g.succs first,
        (∃ k, B nb = some (Max.LowerBound k)) → val.isLB = true := by
      intro nb hnb ⟨k, hk⟩
      have hx : Max.LowerBound k ∈
          (g.succs first).map fun nb' => (B nb').getD (Max.Exact 0) := by
        rw [List.mem_map]
        exact ⟨nb, hnb, by rw [hk]; rfl⟩
      obtain ⟨m, hm, hmlb⟩ := max_of_contaminated hx (by rfl)
      rw [hval]
      unfold nodeNeighborsMax
      rw [hm]
      simp only [isLB_addLocal, hmlb, Bool.true_or]
    refine ⟨?_, ?_, ?_⟩
    · intro v hv
      rcases List.mem_append.mp hv with h | h
      · rw [hkeep v (fun he => hfirst_not_done (he ▸ h))]; exact hsome v h
      · rw [hmem_first v h, hfirst_eq]; rfl
    · intro v hv hu
      rcases List.mem_append.mp hv with h | h
      · rw [hkeep v (fun he => hfirst_not_done (he ▸ h))]; exact hunk v h hu
      · have hveq := hmem_first v h
        have hu' : g.localOf first = Local.Unknown := by rw [← hveq]; exact hu
        rw [hveq, hfirst_eq]
        have hvallb : val.isLB = true := by
          rw [hval]
          cases hnbm : nodeNeighborsMax g B first with
          | none => simp [hu', Local.into, Max.isLB]
          | some m => simp [isLB_addLocal, hu']
        obtain ⟨n, hn⟩ := (isLB_iff_lowerBound val).mp hvallb
        exact ⟨n, by rw [hn]⟩
    · intro v hv nb hnb
      rcases List.mem_append.mp hv with h | h
      · obtain ⟨hnbdone, himp⟩ := hedge v h nb hnb
        refine ⟨List.mem_append.mpr (Or.inl hnbdone), ?_⟩
        rw [hkeep v (fun he => hfirst_not_done (he ▸ h)),
            hkeep nb (fun he => hfirst_not_done (he ▸ hnbdone))]
        exact himp
      · have hveq := hmem_first v h
        rw [hveq] at hnb
        have hnbdone : nb ∈ done := hsucc_done nb hnb
        refine ⟨List.mem_append.mpr (Or.inl hnbdone), ?_⟩
        intro hlb
        rw [hkeep nb (fun he => hfirst_not_done (he ▸ hnbdone))] at hlb
        rw [hveq, hfirst_eq]
        have hLB := hval_lb_of_nb nb hnb hlb
        obtain ⟨n, hn⟩ := (isLB_iff_lowerBound val).mp hLB
        exact ⟨n, by rw [hn]⟩

theorem propagate_inv (g : Graph) :
    ∀ (sccs : List (List Nat)) (done : List Nat) (B : Nat → Option Max),
      validSccs g done sccs = true → Inv g done B →
      Inv g (done ++ sccs.flatten) (sccs.foldl (processScc g) B) := by
  intro sccs
  induction sccs with
  | nil =>
      intro done B _ h
      simpa using h
  | cons scc rest ih =>
      intro done B hval hinv
      unfold validSccs at hval
      rw [Bool.and_eq_true, Bool.and_eq_true, Bool.and_eq_true] at hval
      obtain ⟨⟨⟨hne, hclo⟩, hdis⟩, hrest⟩ := hval
      have hne' : scc ≠ [] := by
        intro h
        subst h
        simp at hne
      have hclo' : ∀ v ∈ scc, ∀ nb ∈ g.succs v, nb ∈ scc ∨ nb ∈ done := by
        intro v hv nb hnb
        rw [List.all_eq_true] at hclo
        have h1 := hclo v hv
        rw [List.all_eq_true] at h1
        have h2 := h1 nb hnb
        rw [Bool.or_eq_true] at h2
        rcases h2 with h | h
        · exact Or.inl (mem_of_contains_true h)
        · exact Or.inr (mem_of_contains_true h)
      have hdis' : ∀ v ∈ scc, v ∉ done := by
        intro v hv
        rw [List.all_eq_true] at hdis
        have h1 := hdis v hv
        intro hvd
        rw [contains_true_of_mem hvd] at h1
        simp at h1
      have hstep := processScc_inv hne' hclo' hdis' hinv
      have := ih (done ++ scc) (processScc g B scc) hrest hstep
      simpa [List.append_assoc] using this

theorem propagate_Inv_final (g : Graph) (sccs : List (List Nat))
    (hval : validSccs g [] sccs = true) :
    Inv g sccs.flatten (propagate g sccs) := by
  have h0 : Inv g [] (fun _ : Nat => none) :=
    ⟨fun w hw => absurd hw (List.not_mem_nil w),
     fun w hw => absurd hw (List.not_mem_nil w),
     fun w hw => absurd hw (List.not_mem_nil w)⟩
  have hmain := propagate_inv g sccs [] (fun _ => none) hval h0
  simpa [propagate] using hmain

/-- C1: Soundness of bound propagation: after the SCC propagation loop has
run over a valid reverse-topological SCC decomposition, for every node `r`
whose transitive bound is set (equivalently, every node covered by the
decomposition), if any node on a path from `r` (`r` itself or any node
reachable from `r` through edges) has `Unknown` local usage or a `LowerBound`
transitive bound, then the transitive bound of `r` is a `LowerBound`, never
an `Exact` value. -/
theorem C1_soundness (g : Graph) (sccs : List (List Nat))
    (hval : validSccs g [] sccs = true) (r m : Nat)
    (hr : r ∈ sccs.flatten) (hrm : Reaches g r m)
    (hbad : g.localOf m = Local.Unknown ∨
      ∃ k, propagate g sccs m = some (Max.LowerBound k)) :
    (∃ k, propagate g sccs r = some (Max.LowerBound k)) ∧
    ∀ n, propagate g sccs r ≠ some (Max.Exact n) := by
  have hinv : Inv g sccs.flatten (propagate g sccs) := propagate_Inv_final g sccs hval
  have key : ∀ a b : Nat, Reaches g a b → a ∈ sccs.flatten →
      (g.localOf b = Local.Unknown ∨
        ∃ k, propagate g sccs b = some (Max.LowerBound k)) →
      ∃ k, propagate g sccs a = some (Max.LowerBound k) := by
    intro a b hreach
    induction hreach with
    | refl a =>
        intro ha hbad'
        rcases hbad' with hu | hlb
        · exact hinv.2.1 a ha hu
        · exact hlb
    | step hstep tail ih =>
        intro ha hbad'
        obtain ⟨hnbdone, himp⟩ := hinv.2.2 _ ha _ hstep
        exact himp (ih hnbdone hbad')
  have hlb := key r m hrm hr hbad
  refine ⟨hlb, ?_⟩
  intro n h
  obtain ⟨k, hk⟩ := hlb
  rw [h] at hk
  exact absurd (Option.some.inj hk) (by simp)

/-- Witness for `C1_soundness`: the unknown-leaf graph of the spec's
scenario 3 (`a` with local 8 calls `x` with `Unknown` local usage); the bound
of `a` comes out as a `LowerBound`. -/
theorem C1_soundness_witness :
    ∃ k, propagate unknownLeafG [[1], [0]] 0 = some (Max.LowerBound k) :=
  (C1_soundness unknownLeafG [[1], [0]] (by decide) 0 1 (by decide)
    (Reaches.step (show (1 : Nat) ∈ unknownLeafG.succs 0 by decide)
      (Reaches.refl 1))
    (Or.inl (by decide))).1

/-! ## The acyclic branch -/

/-- The invariant maintained by the acyclic propagator over the visited set
`done`: every visited node's successors were visited earlier and its bound
equals the propagation equation over the successors' bounds. -/
def InvT (g : Graph) (done : List Nat) (B : Nat → Option Max) : Prop :=
  ∀ v ∈ done, (∀ nb ∈ g.succs v, nb ∈ done) ∧
    B v = some (match nodeNeighborsMax g B v with
      | some m => m.addLocal (g.localOf v)
      | none => (g.localOf v).into)

theorem nodeNeighborsMax_congr {g : Graph} {B B' : Nat → Option Max} {v : Nat}
    (h : ∀ nb ∈ g.succs v, B' nb = B nb) :
    nodeNeighborsMax g B' v = nodeNeighborsMax g B v := by
  unfold nodeNeighborsMax
  congr 1
  apply List.map_congr_left
  intro a ha
  rw [h a ha]

theorem processNode_inv {g : Graph} {done : List Nat} {B : Nat → Option Max}
    {v : Nat} (hv : v ∉ done) (hsucc : ∀ nb ∈ g.succs v, nb ∈ done)
    (hinv : InvT g done B) :
    InvT g (done ++ [v]) (processNode g B v) := by
  have hkeep : ∀ w, w ≠ v → processNode g B v w = B w := by
    intro w hw
    unfold processNode
    rw [if_neg hw]
  have hnew : processNode g B v v =
      some (match nodeNeighborsMax g B v with
        | some m => m.addLocal (g.localOf v)
        | none => (g.localOf v).into) := by
    unfold processNode
    rw [if_pos rfl]
  intro w hw
  rcases List.mem_append.mp hw with h | h
  · obtain ⟨hclo, heq⟩ := hinv w h
    have hwv : w ≠ v := fun he => hv (he ▸ h)
    refine ⟨fun nb hnb => List.mem_append.mpr (Or.inl (hclo nb hnb)), ?_⟩
    rw [hkeep w hwv,
        nodeNeighborsMax_congr (fun nb hnb =>
          hkeep nb (fun he => hv (he ▸ hclo nb hnb)))]
    exact heq
  · have hwv : w = v := by simpa using h
    subst hwv
    refine ⟨fun nb hnb => List.mem_append.mpr (Or.inl (hsucc nb hnb)), ?_⟩
    rw [hnew,
        nodeNeighborsMax_congr (fun nb hnb =>
          hkeep nb (fun he => hv (he ▸ hsucc nb hnb)))]

theorem propagateTopo_inv (g : Graph) :
    ∀ (order done : List Nat) (B : Nat → Option Max),
      topoOk g done order = true → InvT g done B →
      InvT g (done ++ order) (order.foldl (processNode g) B) := by
  intro order
  induction order with
  | nil =>
      intro done B _ h
      simpa using h
  | cons v rest ih =>
      intro done B hord hinv
      unfold topoOk at hord
      rw [Bool.and_eq_true, Bool.and_eq_true] at hord
      obtain ⟨⟨hnd, hsucc⟩, hrest⟩ := hord
      have hnd' : v ∉ done := by
        intro hvd
        rw [contains_true_of_mem hvd] at hnd
        simp at hnd
      have hsucc' : ∀ nb ∈ g.succs v, nb ∈ done := by
        intro nb hnb
        rw [List.all_eq_true] at hsucc
        exact mem_of_contains_true (hsucc nb hnb)
      have hstep := processNode_inv hnd' hsucc' hinv
      have hfin := ih (done ++ [v]) (processNode g B v) hrest hstep
      simpa [List.append_assoc] using hfin

theorem propagateTopo_InvT_final (g : Graph) (order : List Nat)
    (hord : topoOk g [] order = true) :
    InvT g order (propagateTopo g order) := by
  have h0 : InvT g [] (fun _ : Nat => none) :=
    fun w hw => absurd hw (List.not_mem_nil w)
  have hmain := propagateTopo_inv g order [] (fun _ => none) hord h0
  simpa [propagateTopo] using hmain

/-- C3: Acyclic propagation: visiting the nodes of an acyclic graph in a
valid reverse topological order, each node with outgoing edges gets
bound = (max of its neighbors' bounds) + its local usage (`Add<Local>`), and
each node with no outgoing edges gets its local usage cast to a bound; in
particular for the chain `a` (local 8) → `b` (local 16) → `c` (local 4) the
bounds are `Exact 4` for `c`, `Exact 20` for `b` and `Exact 28` for `a`. -/
theorem C3_acyclic_propagation (g : Graph) (order : List Nat)
    (hord : topoOk g [] order = true) (v : Nat) (hv : v ∈ order) :
    ((∀ nb ∈ g.succs v, (propagateTopo g order nb).isSome = true) ∧
     propagateTopo g order v =
       some (match nodeNeighborsMax g (propagateTopo g order) v with
         | some m => m.addLocal (g.localOf v)
         | none => (g.localOf v).into)) ∧
    (propagateTopo chainG [2, 1, 0] 0 = some (Max.Exact 28) ∧
     propagateTopo chainG [2, 1, 0] 1 = some (Max.Exact 20) ∧
     propagateTopo chainG [2, 1, 0] 2 = some (Max.Exact 4)) := by
  have hinv := propagateTopo_InvT_final g order hord
  obtain ⟨hclo, heq⟩ := hinv v hv
  refine ⟨⟨?_, heq⟩, by decide, by decide, by decide⟩
  intro nb hnb
  obtain ⟨_, heq'⟩ := hinv nb (hclo nb hnb)
  rw [heq']
  rfl

/-- Witness for `C3_acyclic_propagation`: the concrete three-node chain. -/
theorem C3_acyclic_propagation_witness :
    propagateTopo chainG [2, 1, 0] 0 = some (Max.Exact 28) ∧
    propagateTopo chainG [2, 1, 0] 1 = some (Max.Exact 20) ∧
    propagateTopo chainG [2, 1, 0] 2 = some (Max.Exact 4) :=
  (C3_acyclic_propagation chainG [2, 1, 0] (by decide) 0 (by decide)).2

/-- C4: Cyclic propagation: for a strongly connected component classified as
a true cycle (more than one node, or a single node with a self loop), with
`L` the max of the members' local usages cast to bounds: every member
receives the same bound, equal to `E + promote L` when edges leave the
component (`E` the max of the outside neighbors' bounds) and `promote L`
alone otherwise; `promote` keeps `Exact 0` exact, turns a nonzero `Exact`
into a `LowerBound` and keeps `LowerBound`s; and the two-node zero-local
cycle gets `Exact 0` on both nodes. -/
theorem C4_cyclic_propagation (g : Graph) (scc : List Nat)
    (B : Nat → Option Max) (hcyc : isACycle g scc = true) :
    ((∀ v ∈ scc, processScc g B scc v =
        some (match sccNeighborsMax g B scc with
          | some e => e.add (sccLocal g scc)
          | none => sccLocal g scc)) ∧
     (∀ v ∈ scc, ∀ w ∈ scc, processScc g B scc v = processScc g B scc w) ∧
     ((max_of (scc.map fun i => (g.localOf i).into)).getD (Max.Exact 0) =
          Max.Exact 0 → sccLocal g scc = Max.Exact 0) ∧
     (∀ n, n ≠ 0 →
        (max_of (scc.map fun i => (g.localOf i).into)).getD (Max.Exact 0) =
          Max.Exact n → sccLocal g scc = Max.LowerBound n) ∧
     (∀ n,
        (max_of (scc.map fun i => (g.localOf i).into)).getD (Max.Exact 0) =
          Max.LowerBound n → sccLocal g scc = Max.LowerBound n)) ∧
    (propagate cyc0G [[0, 1]] 0 = some (Max.Exact 0) ∧
     propagate cyc0G [[0, 1]] 1 = some (Max.Exact 0)) := by
  refine ⟨⟨?_, ?_, ?_, ?_, ?_⟩, by decide, by decide⟩
  · intro v hv
    exact processScc_cycle hcyc hv
  · intro v hv w hw
    rw [processScc_cycle hcyc hv, processScc_cycle hcyc hw]
  · intro h
    unfold sccLocal
    rw [h]
    rfl
  · intro n hn h
    unfold sccLocal
    rw [h]
    simp [promote, hn]
  · intro n h
    unfold sccLocal
    rw [h]
    rfl

/-- Witness for `C4_cyclic_propagation`: the concrete two-node zero-local
cycle. -/
theorem C4_cyclic_propagation_witness :
    propagate cyc0G [[0, 1]] 0 = some (Max.Exact 0) ∧
    propagate cyc0G [[0, 1]] 1 = some (Max.Exact 0) :=
  (C4_cyclic_propagation cyc0G [0, 1] (fun _ => none) (by decide)).2

/-! ## The driver around the propagator -/

/-- The driver logic of `run` around the propagator (src/main.rs lines
791-890): when `has_stack_usage_info` is false, the whole analysis is skipped
after an error-level log line (`error!` only logs) and every node keeps
`max = None`; otherwise the cyclic or the acyclic branch runs.  In all of
these cases `run` then returns `Ok(0)`; the second component is that exit
code. -/
def runStack (hasStackUsageInfo isCyclic : Bool) (g : Graph)
    (sccs : List (List Nat)) (order : List Nat) :
    (Nat → Option Max) × Nat :=
  (if !hasStackUsageInfo then (fun _ => none)
   else if isCyclic then propagate g sccs
   else propagateTopo g order, 0)

/-- A graph in which no node has stack usage information (so
`has_stack_usage_info` is false in `run`). -/
def noInfoG : Graph where
  localOf := fun _ => .Unknown
  succs := fun _ => []

/-- C5 counterexample: a run on a program without any stack-usage
information terminates successfully with exit code 0, yet the transitive
bound of node 0 is absent (`None`), because the propagation phase is skipped
entirely (src/main.rs lines 792-793 log an error and fall through to
`Ok(0)`). -/
theorem C5_counterexample :
    (runStack false false noInfoG [] [0]).2 = 0 ∧
    (runStack false false noInfoG [] [0]).1 0 = none :=
  ⟨rfl, rfl⟩

/-- C5 (amended): provided at least one node has stack-usage information (so
the propagation actually runs), every node covered by the propagation order
has its transitive bound set after the run (which exits with code 0), and
`Unknown` never appears as a transitive result: the bound type `Max` only
has `Exact` and `LowerBound` values. -/
theorem C5_amended_bounds_set (hasInfo cyc : Bool) (g : Graph)
    (sccs : List (List Nat)) (order : List Nat) (v : Nat)
    (hinfo : hasInfo = true)
    (hv : if cyc = true then validSccs g [] sccs = true ∧ v ∈ sccs.flatten
          else topoOk g [] order = true ∧ v ∈ order) :
    (runStack hasInfo cyc g sccs order).2 = 0 ∧
    ((runStack hasInfo cyc g sccs order).1 v).isSome = true ∧
    ∀ mx, (runStack hasInfo cyc g sccs order).1 v = some mx →
      (∃ n, mx = Max.Exact n) ∨ (∃ n, mx = Max.LowerBound n) := by
  subst hinfo
  refine ⟨rfl, ?_, ?_⟩
  · cases cyc with
    | true =>
        rw [if_pos rfl] at hv
        obtain ⟨hval, hmem⟩ := hv
        have hinv := propagate_Inv_final g sccs hval
        simpa [runStack] using hinv.1 v hmem
    | false =>
        rw [if_neg (by simp)] at hv
        obtain ⟨hord, hmem⟩ := hv
        have hinv := propagateTopo_InvT_final g order hord
        obtain ⟨_, heq⟩ := hinv v hmem
        simp [runStack, heq]
  · intro mx _
    cases mx with
    | Exact n => exact Or.inl ⟨n, rfl⟩
    | LowerBound n => exact Or.inr ⟨n, rfl⟩

/-- Witness for `C5_amended_bounds_set`: the two-node cycle graph with stack
usage information present. -/
theorem C5_amended_bounds_set_witness :
    ((runStack true true cyc0G [[0, 1]] []).1 0).isSome = true :=
  (C5_amended_bounds_set true true cyc0G [[0, 1]] [] 0 rfl
    (by rw [if_pos rfl]; exact ⟨by decide, by decide⟩)).2.1

/-! ## The local-usage reconciler and cross-check -/

/-- The local-usage reconciliation and cross-check block of `run`
(src/main.rs lines 546-627), for one defined symbol.  Inputs: whether the
symbol is a compiler-outlined helper, whether it contains inline assembly,
the compiler-reported local usage (`g[caller].local`), the decoder's
`our_stack` and `modifies_sp`.  `warn!` diagnostics are collected in the
returned list; an `assert_eq!` failure panics and aborts the process with a
non-zero exit code, modelled as `Except.error` with the assertion message. -/
def analyzeLocal (isOutlined hasAsm : Bool) (llvmLocal : Local)
    (ourStack : Option Nat) (modifiesSp : Bool) :
    Except String (Local × List String) :=
  -- sanity check on the decoder result (lines 547-557)
  if (match ourStack with
      | some stack => (stack != 0) != modifiesSp
      | none => false) then
    .error "BUG: our analysis reported inconsistent stack usage and modifies_sp"
  else
    match llvmLocal with
    | .Exact llvmStack =>
        -- lines 561-607: possibly override LLVM's value with the decoder's
        let resolved : Nat × List String :=
          match ourStack with
          | some stack =>
              if llvmStack != stack && hasAsm then
                (stack, ["overriding LLVM result (function uses inline assembly)"])
              else if isOutlined then
                if llvmStack == 0 && stack != llvmStack then
                  (stack, ["overriding LLVM result (function produced by outlining pass)"])
                else (llvmStack, [])
              else if stack != llvmStack then
                (stack, ["BUG: decoder result does not match LLVM; overriding LLVM result"])
              else (llvmStack, [])
          | none => (llvmStack, [])
        -- lines 610-617: the cross-check `assert_eq!(*llvm_stack != 0, modifies_sp)`
        if (resolved.1 != 0) != modifiesSp then
          .error "BUG: LLVM stack usage does not match modifies_sp"
        else
          .ok (.Exact resolved.1, resolved.2)
    | .Unknown =>
        -- lines 618-627
        match ourStack with
        | some stack => .ok (.Exact stack, [])
        | none =>
            if !modifiesSp then .ok (.Exact 0, [])
            else .ok (.Unknown, ["no stack usage information"])

/-- C6 counterexample: a function whose reconciled local usage is `Exact 4`
while the decoder reports that it does not modify the stack pointer violates
the cross-check, and the engine aborts through the `assert_eq!` at
src/main.rs lines 610-617 (a panic, hence a non-zero process exit), instead
of emitting a diagnostic and continuing to exit code 0. -/
theorem C6_crosscheck_counterexample :
    analyzeLocal false false (Local.Exact 4) none false =
      Except.error "BUG: LLVM stack usage does not match modifies_sp" := by
  rfl

theorem crosscheck_of_ok {resolved : Nat × List String} {msp' : Bool}
    {n : Nat} {diags : List String}
    (h : (if (resolved.1 != 0) != msp' then
            (Except.error "BUG: LLVM stack usage does not match modifies_sp" :
              Except String (Local × List String))
          else .ok (.Exact resolved.1, resolved.2)) =
        .ok (.Exact n, diags)) :
    (n ≠ 0) ↔ msp' = true := by
  by_cases hc : ((resolved.1 != 0) != msp') = true
  · rw [if_pos hc] at h
    exact absurd h (by simp)
  · rw [if_neg hc] at h
    rw [Except.ok.injEq, Prod.mk.injEq] at h
    obtain ⟨h1, _⟩ := h
    rw [Local.Exact.injEq] at h1
    subst h1
    rw [Bool.not_eq_true, bne_eq_false_iff_eq] at hc
    constructor
    · intro hne
      rw [← hc]
      exact bne_iff_ne.mpr hne
    · intro hmsp
      rw [hmsp] at hc
      exact bne_iff_ne.mp hc

theorem crosscheck_bne_iff {stack : Nat} {msp' : Bool}
    (h : (stack != 0) = msp') : (stack ≠ 0) ↔ msp' = true := by
  constructor
  · intro hne
    rw [← h]
    exact bne_iff_ne.mpr hne
  · intro hmsp
    rw [hmsp] at h
    exact bne_iff_ne.mp h

/-- C6 (amended): a violation of the cross-check `local ≠ 0 iff modifies_sp`
on a reconciled `Exact` local usage is fatal, not recoverable: the engine
panics through an assertion (modelled as `Except.error`), and dually every
run of the reconciler that completes returns an `Exact` value satisfying the
cross-check. -/
theorem C6_crosscheck_fatal (isOutl hasAsm : Bool) (k : Nat) (msp : Bool)
    (hviol : ¬((k ≠ 0) ↔ msp = true)) :
    (∃ e, analyzeLocal isOutl hasAsm (Local.Exact k) none msp =
        Except.error e) ∧
    (∀ ll ours msp' n diags,
        analyzeLocal isOutl hasAsm ll ours msp' =
          Except.ok (Local.Exact n, diags) →
        ((n ≠ 0) ↔ msp' = true)) := by
  constructor
  · refine ⟨"BUG: LLVM stack usage does not match modifies_sp", ?_⟩
    cases msp with
    | false =>
        have hk : k ≠ 0 := fun hk0 => hviol (by simp [hk0])
        simp [analyzeLocal, hk]
    | true =>
        have hk : k = 0 := by
          by_contra hk0
          exact hviol (by simp [hk0])
        simp [analyzeLocal, hk]
  · intro ll ours msp' n diags hok
    unfold analyzeLocal at hok
    split at hok
    · exact absurd hok (by simp)
    · rename_i hsane
      cases ll with
      | Exact llvmStack => exact crosscheck_of_ok hok
      | Unknown =>
          cases ours with
          | some stack =>
              have hsane' : (stack != 0) = msp' := by
                have h1 : ¬(((stack != 0) != msp') = true) := hsane
                rw [Bool.not_eq_true, bne_eq_false_iff_eq] at h1
                exact h1
              have hok' :
                  (Except.ok (Local.Exact stack, ([] : List String)) :
                    Except String (Local × List String)) =
                    Except.ok (Local.Exact n, diags) := hok
              rw [Except.ok.injEq, Prod.mk.injEq] at hok'
              obtain ⟨h1, _⟩ := hok'
              rw [Local.Exact.injEq] at h1
              subst h1
              exact crosscheck_bne_iff hsane'
          | none =>
              have hok' :
                  (if (!msp') = true then
                    (Except.ok (Local.Exact 0, ([] : List String)) :
                      Except String (Local × List String))
                  else
                    Except.ok (Local.Unknown, ["no stack usage information"])) =
                    Except.ok (Local.Exact n, diags) := hok
              split at hok'
              · rename_i hmsp
                rw [Except.ok.injEq, Prod.mk.injEq] at hok'
                obtain ⟨h1, _⟩ := hok'
                rw [Local.Exact.injEq] at h1
                subst h1
                have hmsp' : msp' = false := by simpa using hmsp
                simp [hmsp']
              · exact absurd hok' (by simp)

/-- Witness for `C6_crosscheck_fatal`. -/
theorem C6_crosscheck_fatal_witness :
    ∃ e, analyzeLocal false false (Local.Exact 4) none false =
      Except.error e :=
  (C6_crosscheck_fatal false false 4 false (by decide)).1

/-! ## The symbol & alias table -/

/-- `str::starts_with`, on the underlying character list. -/
def startsWithL (s p : String) : Bool :=
  s.data.take p.data.length == p.data

/-- The tag-name filter of the node-creation loop (src/main.rs lines
190-204): `$a`, `$a.…`, `$x`, `$x.…`. -/
def isTag (name : String) : Bool :=
  name == "$a" || startsWithL name "$a." || name == "$x" || startsWithL name "$x."

/-- The non-tag names of one defined symbol (src/main.rs lines 190-204). -/
def nonTagNames (names : List String) : List String :=
  names.filter fun n => !isTag n

/-- One insertion into a string-keyed `HashMap`, modelled as an association
list with newest-first lookup (overwrite semantics). -/
def mapInsert (m : List (String × String)) (k v : String) :
    List (String × String) :=
  (k, v) :: m

def mapLookup (m : List (String × String)) (k : String) : Option String :=
  (m.find? fun p => p.1 == k).map (fun p => p.2)

def mapInsertN (m : List (Nat × String)) (k : Nat) (v : String) :
    List (Nat × String) :=
  (k, v) :: m

def mapLookupN (m : List (Nat × String)) (k : Nat) : Option String :=
  (m.find? fun p => p.1 == k).map (fun p => p.2)

/-- One iteration of the symbol-table loop (src/main.rs lines 188-226,
restricted to the alias map and the `addr2name` map).  The canonical name is
`names[0]` of the tag-filtered name list (line 219); every non-tag name is
mapped to it in `aliases` (lines 221-223) and the address is mapped to it in
`addr2name` (line 225).  The source indexes `names[0]` and would panic on a
symbol with only tag names; that case is modelled by leaving the maps
unchanged and is excluded by the hypotheses below. -/
def symTabStep (acc : List (String × String) × List (Nat × String))
    (entry : Nat × List String) :
    List (String × String) × List (Nat × String) :=
  match (nonTagNames entry.2).head? with
  | none => acc
  | some canonical =>
      ((nonTagNames entry.2).foldl
        (fun al name => mapInsert al name canonical) acc.1,
       mapInsertN acc.2 entry.1 canonical)

/-- The symbol & alias table construction over all defined symbols. -/
def buildSymTab (syms : List (Nat × List String)) :
    List (String × String) × List (Nat × String) :=
  syms.foldl symTabStep ([], [])

/-- Pairwise disjointness of the non-tag name sets of the defined symbols. -/
def namesDisjoint : List (Nat × List String) → Bool
  | [] => true
  | e :: rest =>
      (rest.all fun e2 =>
        (nonTagNames e.2).all fun n => !(nonTagNames e2.2).contains n) &&
      namesDisjoint rest

theorem not_bool_true {b : Bool} (h : (!b) = true) : b = false := by
  cases b
  · rfl
  · simp at h

theorem mem_of_head?_eq {l : List String} {c : String}
    (h : l.head? = some c) : c ∈ l := by
  cases l with
  | nil => cases h
  | cons a t =>
      rw [List.head?_cons, Option.some.injEq] at h
      rw [← h]
      exact List.mem_cons_self a t

theorem insert_fold_keep (names : List String) (c : String)
    (al : List (String × String)) (n : String) (hn : n ∉ names) :
    mapLookup (names.foldl (fun al' name => mapInsert al' name c) al) n =
      mapLookup al n := by
  induction names generalizing al with
  | nil => rfl
  | cons x rest ih =>
      have hx : n ≠ x := fun h => hn (h ▸ List.mem_cons_self x rest)
      have hrest : n ∉ rest := fun h => hn (List.mem_cons_of_mem x h)
      rw [List.foldl_cons, ih (mapInsert al x c) hrest]
      unfold mapInsert mapLookup
      rw [List.find?_cons_of_neg]
      simp [hx.symm]

theorem insert_fold_lookup (names : List String) (c : String)
    (al : List (String × String)) (n : String) (hn : n ∈ names) :
    mapLookup (names.foldl (fun al' name => mapInsert al' name c) al) n =
      some c := by
  induction names generalizing al with
  | nil => cases hn
  | cons x rest ih =>
      rw [List.foldl_cons]
      by_cases hr : n ∈ rest
      · exact ih (mapInsert al x c) hr
      · have hx : n = x := by
          rcases List.mem_cons.mp hn with h | h
          · exact h
          · exact absurd h hr
        rw [insert_fold_keep rest c _ n hr]
        unfold mapInsert mapLookup
        rw [List.find?_cons_of_pos]
        · rfl
        · simp [hx.symm]

theorem symTab_addr_keep (syms : List (Nat × List String)) :
    ∀ (acc : List (String × String) × List (Nat × String)) (a : Nat),
      (∀ e ∈ syms, e.1 ≠ a) →
      mapLookupN (syms.foldl symTabStep acc).2 a = mapLookupN acc.2 a := by
  induction syms with
  | nil => intro acc a _; rfl
  | cons e0 rest ih =>
      intro acc a ha
      rw [List.foldl_cons]
      rw [ih (symTabStep acc e0) a (fun e he => ha e (List.mem_cons_of_mem e0 he))]
      cases hh : (nonTagNames e0.2).head? with
      | none => simp only [symTabStep, hh]
      | some c =>
          simp only [symTabStep, hh]
          unfold mapInsertN mapLookupN
          rw [List.find?_cons_of_neg]
          simp [ha e0 (List.mem_cons_self e0 rest)]

theorem symTab_name_keep (syms : List (Nat × List String)) :
    ∀ (acc : List (String × String) × List (Nat × String)) (n : String),
      (∀ e ∈ syms, n ∉ nonTagNames e.2) →
      mapLookup (syms.foldl symTabStep acc).1 n = mapLookup acc.1 n := by
  induction syms with
  | nil => intro acc n _; rfl
  | cons e0 rest ih =>
      intro acc n hn
      rw [List.foldl_cons]
      rw [ih (symTabStep acc e0) n (fun e he => hn e (List.mem_cons_of_mem e0 he))]
      cases hh : (nonTagNames e0.2).head? with
      | none => simp only [symTabStep, hh]
      | some c =>
          simp only [symTabStep, hh]
          exact insert_fold_keep _ c _ n (hn e0 (List.mem_cons_self e0 rest))

/-- The main per-entry characterization of the finished symbol table. -/
theorem symTab_fold_entry (syms : List (Nat × List String)) :
    ∀ (acc : List (String × String) × List (Nat × String))
      (e : Nat × List String), e ∈ syms →
      (syms.map Prod.fst).Nodup →
      namesDisjoint syms = true →
      ∀ c, (nonTagNames e.2).head? = some c →
      mapLookupN (syms.foldl symTabStep acc).2 e.1 = some c ∧
      ∀ n ∈ nonTagNames e.2,
        mapLookup (syms.foldl symTabStep acc).1 n = some c := by
  induction syms with
  | nil => intro acc e he; cases he
  | cons e0 rest ih =>
      intro acc e he hnodup hdisj c hc
      rw [List.map_cons, List.nodup_cons] at hnodup
      obtain ⟨haddr0, hnodup'⟩ := hnodup
      unfold namesDisjoint at hdisj
      rw [Bool.and_eq_true] at hdisj
      obtain ⟨hdisj0, hdisj'⟩ := hdisj
      rw [List.all_eq_true] at hdisj0
      rcases List.mem_cons.mp he with he0 | hrest
      · subst he0
        rw [List.foldl_cons]
        constructor
        · rw [symTab_addr_keep rest (symTabStep acc e) e.1 ?later]
          case later =>
            intro e2 he2 heq
            exact haddr0 (heq ▸ List.mem_map_of_mem Prod.fst he2)
          simp only [symTabStep, hc]
          unfold mapInsertN mapLookupN
          rw [List.find?_cons_of_pos]
          · rfl
          · simp
        · intro n hn
          rw [symTab_name_keep rest (symTabStep acc e) n ?later2]
          case later2 =>
            intro e2 he2 hmem
            have h1 := hdisj0 e2 he2
            rw [List.all_eq_true] at h1
            have h2 := h1 n hn
            exact (not_mem_of_contains_false (not_bool_true h2)) hmem
          simp only [symTabStep, hc]
          exact insert_fold_lookup _ c _ n hn
      · rw [List.foldl_cons]
        exact ih (symTabStep acc e0) e hrest hnodup' hdisj' c hc

theorem insert_fold_mem (names : List String) (c : String)
    (al : List (String × String)) (p : String × String)
    (hp : p ∈ names.foldl (fun al' name => mapInsert al' name c) al) :
    p ∈ al ∨ p.1 ∈ names := by
  induction names generalizing al with
  | nil => exact Or.inl hp
  | cons x rest ih =>
      rw [List.foldl_cons] at hp
      rcases ih (mapInsert al x c) hp with h | h
      · unfold mapInsert at h
        rcases List.mem_cons.mp h with h1 | h1
        · right
          rw [h1]
          exact List.mem_cons_self x rest
        · exact Or.inl h1
      · exact Or.inr (List.mem_cons_of_mem x h)

theorem symTab_keys_nonTag (syms : List (Nat × List String)) :
    ∀ (acc : List (String × String) × List (Nat × String)),
      (∀ p ∈ acc.1, isTag p.1 = false) →
      ∀ p ∈ (syms.foldl symTabStep acc).1, isTag p.1 = false := by
  induction syms with
  | nil => intro acc hacc p hp; exact hacc p hp
  | cons e0 rest ih =>
      intro acc hacc p hp
      rw [List.foldl_cons] at hp
      refine ih (symTabStep acc e0) ?_ p hp
      intro q hq
      cases hh : (nonTagNames e0.2).head? with
      | none =>
          simp only [symTabStep, hh] at hq
          exact hacc q hq
      | some c =>
          simp only [symTabStep, hh] at hq
          rcases insert_fold_mem _ c _ q hq with h | h
          · exact hacc q h
          · unfold nonTagNames at h
            have := List.of_mem_filter h
            simpa using this

theorem canon_nonTag {names : List String} {c : String}
    (hc : (nonTagNames names).head? = some c) : isTag c = false := by
  have hmem := mem_of_head?_eq hc
  unfold nonTagNames at hmem
  have := List.of_mem_filter hmem
  simpa using this

theorem canon_inj (syms : List (Nat × List String)) :
    namesDisjoint syms = true →
    ∀ e1 ∈ syms, ∀ e2 ∈ syms, e1.1 ≠ e2.1 →
    ∀ c1 c2, (nonTagNames e1.2).head? = some c1 →
      (nonTagNames e2.2).head? = some c2 → c1 ≠ c2 := by
  induction syms with
  | nil => intro _ e1 he1; cases he1
  | cons e0 rest ih =>
      intro hdisj e1 he1 e2 he2 hne c1 c2 hc1 hc2
      unfold namesDisjoint at hdisj
      rw [Bool.and_eq_true] at hdisj
      obtain ⟨hdisj0, hdisj'⟩ := hdisj
      rw [List.all_eq_true] at hdisj0
      have hsep : ∀ e' ∈ rest, ∀ n ∈ nonTagNames e0.2,
          n ∉ nonTagNames e'.2 := by
        intro e' he' n hn
        have h1 := hdisj0 e' he'
        rw [List.all_eq_true] at h1
        have h2 := h1 n hn
        exact not_mem_of_contains_false (not_bool_true h2)
      rcases List.mem_cons.mp he1 with h1 | h1 <;>
        rcases List.mem_cons.mp he2 with h2 | h2
      · exact absurd (h1 ▸ h2 ▸ rfl) hne
      · subst h1
        intro hcc
        exact hsep e2 h2 c1 (mem_of_head?_eq hc1)
          (hcc ▸ mem_of_head?_eq hc2)
      · subst h2
        intro hcc
        exact hsep e1 h1 c2 (mem_of_head?_eq hc2)
          (hcc ▸ mem_of_head?_eq hc1)
      · exact ih hdisj' e1 h1 e2 h2 hne c1 c2 hc1 hc2

/-- C7 counterexample: two defined symbols at the distinct addresses 0 and 4
both named `foo` both get the canonical name `foo`, so two distinct
addresses share a canonical name, refuting the claim's contract on this
input (the source never checks name uniqueness across addresses). -/
theorem C7_counterexample :
    (0 : Nat) ≠ 4 ∧
    mapLookupN (buildSymTab [(0, ["foo"]), (4, ["foo"])]).2 0 = some "foo" ∧
    mapLookupN (buildSymTab [(0, ["foo"]), (4, ["foo"])]).2 4 = some "foo" := by
  refine ⟨by decide, by decide, by decide⟩

/-- C7 (amended): provided the addresses are distinct and no non-tag name
appears at two distinct defined symbols, the symbol & alias table satisfies
the claimed contract: the canonical name of every address is the first
non-tag name at that address, every non-tag name at that address maps to
that canonical name in the alias table, tag names are neither canonical nor
keys of the alias table, and two distinct addresses never share a canonical
name. -/
theorem C7_symbol_alias_table (syms : List (Nat × List String))
    (hnodup : (syms.map Prod.fst).Nodup)
    (hdisj : namesDisjoint syms = true)
    (e : Nat × List String) (he : e ∈ syms)
    (c : String) (hc : (nonTagNames e.2).head? = some c) :
    mapLookupN (buildSymTab syms).2 e.1 = some c ∧
    (∀ n ∈ nonTagNames e.2, mapLookup (buildSymTab syms).1 n = some c) ∧
    isTag c = false ∧
    (∀ p ∈ (buildSymTab syms).1, isTag p.1 = false) ∧
    (∀ e2 ∈ syms, e2.1 ≠ e.1 →
      ∀ c2, (nonTagNames e2.2).head? = some c2 → c2 ≠ c) := by
  obtain ⟨haddr, hname⟩ :=
    symTab_fold_entry syms ([], []) e he hnodup hdisj c hc
  refine ⟨haddr, hname, canon_nonTag hc, ?_, ?_⟩
  · exact symTab_keys_nonTag syms ([], []) (fun p hp => absurd hp (List.not_mem_nil p))
  · intro e2 he2 hne c2 hc2
    exact canon_inj syms hdisj e2 he2 e he hne c2 c hc2 hc

/-- Witness for `C7_symbol_alias_table`: two symbols, one with a leading tag
name. -/
theorem C7_symbol_alias_table_witness :
    mapLookupN (buildSymTab [(0, ["$a", "foo", "bar"]), (4, ["baz"])]).2 0 =
      some "foo" :=
  (C7_symbol_alias_table [(0, ["$a", "foo", "bar"]), (4, ["baz"])]
    (by decide) (by decide) (0, ["$a", "foo", "bar"]) (by decide)
    "foo" (by decide)).1

/-! ## The indirect-call resolver -/

/-- `struct Indirect` (src/main.rs lines 1144-1150): whether the signature
was seen at an indirect call site, the recorded callers and the
signature-matched callees (collected in the node-creation loop, lines
248-259: every function whose IR-declared signature matches). -/
structure Indirect where
  called : Bool
  callers : List Nat
  callees : List Nat
deriving DecidableEq

/-- A node weight (`struct Node`, src/main.rs lines 1044-1050): display
name, local usage, and the `dashed` flag marking synthetic function-pointer
call-site nodes.  The source field `local` is a reserved word in Lean and is
named `localUsage` here. -/
structure GNode where
  name : String
  localUsage : Local
  dashed : Bool
deriving DecidableEq

/-- `fn Node(name, stack, dashed)` (src/main.rs lines 1052-1063):
`stack.map(Local::Exact).unwrap_or(Local::Unknown)`. -/
def mkNode (name : String) (stack : Option Nat) (dashed : Bool) : GNode :=
  { name := name,
    localUsage := (stack.map Local.Exact).getD Local.Unknown,
    dashed := dashed }

/-- The graph as mutated by the resolver: the node-weight list (a node's
index is its position) and the edge list. -/
structure GState where
  nodes : List GNode
  edges : List (Nat × Nat)
deriving DecidableEq

/-- `g.add_node`: appends a node; the new node's index is the old length. -/
def addNode (s : GState) (n : GNode) : GState × Nat :=
  ({ s with nodes := s.nodes ++ [n] }, s.nodes.length)

/-- `g.add_edge`. -/
def addEdge (s : GState) (a b : Nat) : GState :=
  { s with edges := s.edges ++ [(a, b)] }

/-- The index the synthetic call-site node receives when processing starts
from state `s`. -/
def callIdx (s : GState) : Nat := s.nodes.length

/-- Stage 1 of one resolver iteration (src/main.rs line 702): add the
synthetic node `Node(sig ++ "*", Some(0), true)`. -/
def stage1 (s : GState) (sig : String) : GState :=
  (addNode s (mkNode (sig ++ "*") (some 0) true)).1

/-- Stage 2 (src/main.rs lines 704-706): an edge from every recorded caller
to the synthetic node. -/
def stage2 (s : GState) (sig : String) (ind : Indirect) : GState :=
  ind.callers.foldl (fun st c => addEdge st c (callIdx s)) (stage1 s sig)

/-- Stage 3 (src/main.rs lines 708-716): when the program contains untyped
external symbols, add a `?` sentinel node (`Node("?", None, false)`) and an
edge from the synthetic node to it.  (`error!` on an empty callee list is
a diagnostic only.) -/
def stage3 (h : Bool) (s : GState) (sig : String) (ind : Indirect) : GState :=
  if h then
    addEdge (addNode (stage2 s sig ind) (mkNode "?" none false)).1 (callIdx s)
      (addNode (stage2 s sig ind) (mkNode "?" none false)).2
  else stage2 s sig ind

/-- The body of one resolver iteration for a called signature, stage 4
included (src/main.rs lines 718-720): an edge from the synthetic node to
every recorded callee. -/
def resolveOne (h : Bool) (s : GState) (sig : String) (ind : Indirect) :
    GState :=
  ind.callees.foldl (fun st c => addEdge st (callIdx s) c) (stage3 h s sig ind)

/-- One iteration of the resolver loop (src/main.rs lines 691-721):
signatures never marked called are skipped entirely. -/
def processIndirect (h : Bool) (s : GState) (item : String × Indirect) :
    GState :=
  if !item.2.called then s else resolveOne h s item.1 item.2

/-- The whole resolver loop over the `indirects` map. -/
def processIndirects (h : Bool) (s : GState)
    (items : List (String × Indirect)) : GState :=
  items.foldl (processIndirect h) s

/-- `s2` extends `s1`: nodes are only appended, edges only added. -/
def GExt (s1 s2 : GState) : Prop :=
  (∃ tl, s2.nodes = s1.nodes ++ tl) ∧ ∀ e ∈ s1.edges, e ∈ s2.edges

theorem GExt_refl (s : GState) : GExt s s :=
  ⟨⟨[], by simp⟩, fun _ he => he⟩

theorem GExt_trans {a b c : GState} (h1 : GExt a b) (h2 : GExt b c) :
    GExt a c := by
  obtain ⟨⟨t1, ht1⟩, he1⟩ := h1
  obtain ⟨⟨t2, ht2⟩, he2⟩ := h2
  exact ⟨⟨t1 ++ t2, by rw [ht2, ht1, List.append_assoc]⟩,
    fun e he => he2 e (he1 e he)⟩

theorem addEdge_ext (s : GState) (a b : Nat) : GExt s (addEdge s a b) :=
  ⟨⟨[], by simp [addEdge]⟩,
   fun e he => List.mem_append.mpr (Or.inl he)⟩

theorem addNode_ext (s : GState) (n : GNode) : GExt s (addNode s n).1 :=
  ⟨⟨[n], rfl⟩, fun _ he => he⟩

theorem foldl_ext {β : Type} (f : GState → β → GState)
    (hf : ∀ st x, GExt st (f st x)) (l : List β) (s : GState) :
    GExt s (l.foldl f s) := by
  induction l generalizing s with
  | nil => exact GExt_refl s
  | cons x r ih => exact GExt_trans (hf s x) (ih (f s x))

theorem stage2_ext (s : GState) (sig : String) (ind : Indirect) :
    GExt s (stage2 s sig ind) :=
  GExt_trans (addNode_ext s _)
    (foldl_ext _ (fun st c => addEdge_ext st c (callIdx s)) _ _)

theorem stage3_ext (h : Bool) (s : GState) (sig : String) (ind : Indirect) :
    GExt (stage2 s sig ind) (stage3 h s sig ind) := by
  unfold stage3
  cases h with
  | false => exact GExt_refl _
  | true =>
      rw [if_pos rfl]
      exact GExt_trans (addNode_ext _ _) (addEdge_ext _ _ _)

theorem resolveOne_ext (h : Bool) (s : GState) (sig : String)
    (ind : Indirect) : GExt s (resolveOne h s sig ind) :=
  GExt_trans (stage2_ext s sig ind)
    (GExt_trans (stage3_ext h s sig ind)
      (foldl_ext _ (fun st c => addEdge_ext st (callIdx s) c) _ _))

theorem processIndirect_ext (h : Bool) (s : GState)
    (item : String × Indirect) : GExt s (processIndirect h s item) := by
  unfold processIndirect
  by_cases hc : (!item.2.called) = true
  · rw [if_pos hc]; exact GExt_refl s
  · rw [if_neg hc]; exact resolveOne_ext h s item.1 item.2

theorem GExt_nodeAt {s1 s2 : GState} (h : GExt s1 s2) {i : Nat} {n : GNode}
    (hn : s1.nodes.get? i = some n) : s2.nodes.get? i = some n := by
  obtain ⟨⟨tl, htl⟩, _⟩ := h
  rw [htl, List.get?_append]
  · exact hn
  · exact List.get?_eq_some.mp hn |>.1

theorem get?_append_cons {α : Type} (l1 : List α) (a : α) (l2 : List α) :
    (l1 ++ a :: l2).get? l1.length = some a := by
  induction l1 with
  | nil => rfl
  | cons x r ih => simpa using ih

theorem nodes_foldl_addEdgeL (l : List Nat) (x : Nat) (s : GState) :
    (l.foldl (fun st c => addEdge st c x) s).nodes = s.nodes := by
  induction l generalizing s with
  | nil => rfl
  | cons c r ih => rw [List.foldl_cons, ih]; rfl

theorem mem_edges_foldl_addEdgeL (l : List Nat) (x : Nat) (s : GState)
    (c : Nat) (hc : c ∈ l) :
    (c, x) ∈ (l.foldl (fun st c' => addEdge st c' x) s).edges := by
  induction l generalizing s with
  | nil => cases hc
  | cons y r ih =>
      rw [List.foldl_cons]
      rcases List.mem_cons.mp hc with h | h
      · subst h
        refine (foldl_ext _ (fun st c' => addEdge_ext st c' x) r _).2 _ ?_
        exact List.mem_append.mpr (Or.inr (List.mem_cons_self _ _))
      · exact ih _ h

theorem mem_edges_foldl_addEdgeR (l : List Nat) (x : Nat) (s : GState)
    (c : Nat) (hc : c ∈ l) :
    (x, c) ∈ (l.foldl (fun st c' => addEdge st x c') s).edges := by
  induction l generalizing s with
  | nil => cases hc
  | cons y r ih =>
      rw [List.foldl_cons]
      rcases List.mem_cons.mp hc with h | h
      · subst h
        refine (foldl_ext _ (fun st c' => addEdge_ext st x c') r _).2 _ ?_
        exact List.mem_append.mpr (Or.inr (List.mem_cons_self _ _))
      · exact ih _ h

theorem stage2_nodes (s : GState) (sig : String) (ind : Indirect) :
    (stage2 s sig ind).nodes = s.nodes ++ [mkNode (sig ++ "*") (some 0) true] := by
  unfold stage2
  rw [nodes_foldl_addEdgeL]
  rfl

/-- The full characterization of one resolver iteration for a called
signature. -/
theorem resolveOne_spec (h : Bool) (s : GState) (sig : String)
    (ind : Indirect) :
    (resolveOne h s sig ind).nodes.get? (callIdx s) =
      some (mkNode (sig ++ "*") (some 0) true) ∧
    (∀ c ∈ ind.callers, (c, callIdx s) ∈ (resolveOne h s sig ind).edges) ∧
    (∀ d ∈ ind.callees, (callIdx s, d) ∈ (resolveOne h s sig ind).edges) ∧
    (h = true → ∃ u,
      (resolveOne h s sig ind).nodes.get? u = some (mkNode "?" none false) ∧
      (callIdx s, u) ∈ (resolveOne h s sig ind).edges) := by
  have hext34 : GExt (stage3 h s sig ind) (resolveOne h s sig ind) :=
    foldl_ext _ (fun st c => addEdge_ext st (callIdx s) c) _ _
  have hext23 : GExt (stage2 s sig ind) (stage3 h s sig ind) :=
    stage3_ext h s sig ind
  have hget2 : (stage2 s sig ind).nodes.get? (callIdx s) =
      some (mkNode (sig ++ "*") (some 0) true) := by
    rw [stage2_nodes]
    have := get?_append_cons s.nodes (mkNode (sig ++ "*") (some 0) true) []
    simpa [callIdx] using this
  refine ⟨?_, ?_, ?_, ?_⟩
  · exact GExt_nodeAt (GExt_trans hext23 hext34) hget2
  · intro c hc
    refine hext34.2 _ (hext23.2 _ ?_)
    unfold stage2
    exact mem_edges_foldl_addEdgeL _ _ _ c hc
  · intro d hd
    unfold resolveOne
    exact mem_edges_foldl_addEdgeR _ _ _ d hd
  · intro hh
    subst hh
    refine ⟨callIdx s + 1, ?_, ?_⟩
    · have hget3 : (stage3 true s sig ind).nodes.get? (callIdx s + 1) =
          some (mkNode "?" none false) := by
        unfold stage3
        rw [if_pos rfl]
        show ((addNode (stage2 s sig ind) (mkNode "?" none false)).1.nodes).get?
          (callIdx s + 1) = some (mkNode "?" none false)
        have hn : (addNode (stage2 s sig ind) (mkNode "?" none false)).1.nodes =
            (s.nodes ++ [mkNode (sig ++ "*") (some 0) true]) ++
              mkNode "?" none false :: [] := by
          show (stage2 s sig ind).nodes ++ [mkNode "?" none false] = _
          rw [stage2_nodes]
        rw [hn]
        have hlen : callIdx s + 1 =
            (s.nodes ++ [mkNode (sig ++ "*") (some 0) true]).length := by
          simp [callIdx]
        rw [hlen]
        exact get?_append_cons _ _ _
      exact GExt_nodeAt hext34 hget3
    · refine hext34.2 _ ?_
      unfold stage3
      rw [if_pos rfl]
      have hu : (addNode (stage2 s sig ind) (mkNode "?" none false)).2 =
          callIdx s + 1 := by
        show (stage2 s sig ind).nodes.length = callIdx s + 1
        rw [stage2_nodes]
        simp [callIdx]
      rw [hu]
      exact List.mem_append.mpr (Or.inr (List.mem_cons_self _ _))

/-- C8: Indirect-call resolution postcondition: for every signature marked
called, the output graph contains a synthetic function-pointer call-site
node named `sig ++ "*"` with local usage `Exact 0` and the dashed
(synthetic) flag set, an edge from every recorded caller to it, an edge from
it to every recorded signature-matching callee, and, when the program
contains untyped external symbols, an edge from it to a fresh `?` sentinel
node with `Unknown` local usage; a signature never marked called leaves the
graph unchanged (no synthetic node). -/
theorem C8_indirect_resolver (h : Bool) (s0 : GState)
    (items : List (String × Indirect)) (sig : String) (ind : Indirect)
    (hmem : (sig, ind) ∈ items) (hcalled : ind.called = true) :
    (∃ idx,
      (processIndirects h s0 items).nodes.get? idx =
        some (mkNode (sig ++ "*") (some 0) true) ∧
      (mkNode (sig ++ "*") (some 0) true).localUsage = Local.Exact 0 ∧
      (mkNode (sig ++ "*") (some 0) true).dashed = true ∧
      (∀ c ∈ ind.callers, (c, idx) ∈ (processIndirects h s0 items).edges) ∧
      (∀ d ∈ ind.callees, (idx, d) ∈ (processIndirects h s0 items).edges) ∧
      (h = true → ∃ u,
        (processIndirects h s0 items).nodes.get? u =
          some (mkNode "?" none false) ∧
        (mkNode "?" none false).localUsage = Local.Unknown ∧
        (idx, u) ∈ (processIndirects h s0 items).edges)) ∧
    (∀ s' sig2 ind2, ind2.called = false →
      processIndirect h s' (sig2, ind2) = s') := by
  constructor
  · obtain ⟨l1, l2, hsplit⟩ := List.append_of_mem hmem
    subst hsplit
    unfold processIndirects
    rw [List.foldl_append, List.foldl_cons]
    have hmid : processIndirect h (l1.foldl (processIndirect h) s0) (sig, ind) =
        resolveOne h (l1.foldl (processIndirect h) s0) sig ind := by
      unfold processIndirect
      rw [if_neg]
      simp [hcalled]
    rw [hmid]
    have hrest : GExt (resolveOne h (l1.foldl (processIndirect h) s0) sig ind)
        (l2.foldl (processIndirect h)
          (resolveOne h (l1.foldl (processIndirect h) s0) sig ind)) :=
      foldl_ext _ (processIndirect_ext h) _ _
    obtain ⟨hn, hcallers, hcallees, huntyped⟩ :=
      resolveOne_spec h (l1.foldl (processIndirect h) s0) sig ind
    refine ⟨callIdx (l1.foldl (processIndirect h) s0),
      GExt_nodeAt hrest hn, rfl, rfl, ?_, ?_, ?_⟩
    · intro c hc
      exact hrest.2 _ (hcallers c hc)
    · intro d hd
      exact hrest.2 _ (hcallees d hd)
    · intro hh
      obtain ⟨u, hu1, hu2⟩ := huntyped hh
      exact ⟨u, GExt_nodeAt hrest hu1, rfl, hrest.2 _ hu2⟩
  · intro s' sig2 ind2 h2
    unfold processIndirect
    rw [if_pos]
    simp [h2]

/-- Witness for `C8_indirect_resolver`: the spec's scenario 6 shape — one
called signature with one caller and two callees, in a program with untyped
external symbols. -/
theorem C8_indirect_resolver_witness :
    ∃ idx,
      (processIndirects true ⟨[], []⟩
          [("i32 (i32)", ⟨true, [0], [1, 2]⟩)]).nodes.get? idx =
        some (mkNode ("i32 (i32)" ++ "*") (some 0) true) ∧
      (mkNode ("i32 (i32)" ++ "*") (some 0) true).localUsage = Local.Exact 0 ∧
      (mkNode ("i32 (i32)" ++ "*") (some 0) true).dashed = true ∧
      (∀ c ∈ [0], (c, idx) ∈ (processIndirects true ⟨[], []⟩
          [("i32 (i32)", ⟨true, [0], [1, 2]⟩)]).edges) ∧
      (∀ d ∈ [1, 2], (idx, d) ∈ (processIndirects true ⟨[], []⟩
          [("i32 (i32)", ⟨true, [0], [1, 2]⟩)]).edges) ∧
      (true = true → ∃ u,
        (processIndirects true ⟨[], []⟩
            [("i32 (i32)", ⟨true, [0], [1, 2]⟩)]).nodes.get? u =
          some (mkNode "?" none false) ∧
        (mkNode "?" none false).localUsage = Local.Unknown ∧
        (idx, u) ∈ (processIndirects true ⟨[], []⟩
            [("i32 (i32)", ⟨true, [0], [1, 2]⟩)]).edges) :=
  (C8_indirect_resolver true ⟨[], []⟩
    [("i32 (i32)", ⟨true, [0], [1, 2]⟩)] "i32 (i32)" ⟨true, [0], [1, 2]⟩
    (List.mem_cons_self _ _) rfl).1

/-! ## `dehash` and the name shortener -/

/-- `fn dehash` (src/main.rs lines 1152-1170): strip a 19-character
`::h<16 hex digits>` suffix when present.  `HASH_LENGTH = 19`; the source
only checks that the last 19 bytes start with `::h` (the 16 remaining
characters are not checked to be hex).  Byte indexing is modelled on the
character list, which agrees on the ASCII symbol names involved. -/
def dehash (demangled : String) : Option String :=
  if 19 < demangled.data.length then
    if (demangled.data.drop (demangled.data.length - 19)).take 3 =
        [':', ':', 'h'] then
      some (String.mk (demangled.data.take (demangled.data.length - 19)))
    else none
  else none

/-- The `ambiguous` census (src/main.rs lines 240-243): how many canonical
defined-symbol names demangle-then-dehash to the prefix `p`.  `dem` is the
opaque demangler. -/
def ambiguousCount (dem : String → String) (census : List String)
    (p : String) : Nat :=
  census.countP fun name => dehash (dem name) == some p

/-- The name-shortener pass for one node (src/main.rs lines 873-882):
replace the display name by the dehashed prefix of its demangled form when
the census counts that prefix exactly once.  (The source indexes
`ambiguous[dehashed]`, which panics when the prefix was never counted; here
a missing prefix counts 0 and the name is left unchanged, which only makes
the claim easier to refute.) -/
def shortenName (dem : String → String) (census : List String)
    (name : String) : String :=
  match dehash (dem name) with
  | some d => if ambiguousCount dem census d = 1 then d else name
  | none => name

/-- C9 counterexample: a graph whose nodes carry the two distinct canonical
names `foo::h0123456789abcdef` and `foo` (both counted by the census): the
shortener renames the first to `foo` and leaves the second as `foo`, so two
distinct nodes share the display name `foo` after the pass. -/
theorem C9_counterexample :
    ("foo::h0123456789abcdef" : String) ≠ "foo" ∧
    ["foo::h0123456789abcdef", "foo"].map
        (shortenName id ["foo::h0123456789abcdef", "foo"]) =
      ["foo", "foo"] := by
  refine ⟨by decide, by decide⟩

theorem two_le_countP {α : Type} (p : α → Bool) {l : List α} {a b : α}
    (ha : a ∈ l) (hb : b ∈ l) (hab : a ≠ b) (hpa : p a = true)
    (hpb : p b = true) : 2 ≤ l.countP p := by
  induction l with
  | nil => cases ha
  | cons x r ih =>
      rw [List.countP_cons]
      rcases List.mem_cons.mp ha with h1 | h1 <;>
        rcases List.mem_cons.mp hb with h2 | h2
      · exact absurd (h1.trans h2.symm) hab
      · subst h1
        have hr : 1 ≤ r.countP p := by
          rw [Nat.succ_le_iff]
          exact List.countP_pos.mpr ⟨b, h2, hpb⟩
        rw [hpa, if_pos rfl]
        omega
      · subst h2
        have hr : 1 ≤ r.countP p := by
          rw [Nat.succ_le_iff]
          exact List.countP_pos.mpr ⟨a, h1, hpa⟩
        rw [hpb, if_pos rfl]
        omega
      · have := ih h1 h2
        omega

/-- C9 (amended): the shortener never renames two distinct nodes to the same
prefix: if two distinct names counted by the ambiguity census are both
actually replaced (their dehashed prefixes are counted exactly once), the
resulting display names are distinct.  (As stated the claim fails: a node
renamed to a dehashed prefix can collide with a node that already carried
that prefix as its full name, or with a duplicated `?` sentinel — see the
counterexample.) -/
theorem C9_shortener_injective_on_renamed (dem : String → String)
    (census : List String) (n1 n2 p1 p2 : String)
    (h1 : n1 ∈ census) (h2 : n2 ∈ census) (hne : n1 ≠ n2)
    (hd1 : dehash (dem n1) = some p1)
    (hc1 : ambiguousCount dem census p1 = 1)
    (hd2 : dehash (dem n2) = some p2)
    (hc2 : ambiguousCount dem census p2 = 1) :
    shortenName dem census n1 = p1 ∧ shortenName dem census n2 = p2 ∧
    p1 ≠ p2 := by
  refine ⟨?_, ?_, ?_⟩
  · simp only [shortenName, hd1]
    rw [if_pos hc1]
  · simp only [shortenName, hd2]
    rw [if_pos hc2]
  · intro hpp
    subst hpp
    have hcount : 2 ≤ census.countP
        fun name => dehash (dem name) == some p1 := by
      refine two_le_countP _ h1 h2 hne ?_ ?_
      · rw [hd1]
        simp
      · rw [hd2]
        simp
    unfold ambiguousCount at hc1
    omega

/-- Witness for `C9_shortener_injective_on_renamed`: two hashed names with
distinct prefixes are shortened to distinct names. -/
theorem C9_shortener_injective_witness :
    shortenName id ["a::h0000000000000000", "b::h0000000000000000"]
        "a::h0000000000000000" = "a" ∧
    shortenName id ["a::h0000000000000000", "b::h0000000000000000"]
        "b::h0000000000000000" = "b" ∧
    ("a" : String) ≠ "b" :=
  C9_shortener_injective_on_renamed id
    ["a::h0000000000000000", "b::h0000000000000000"]
    "a::h0000000000000000" "b::h0000000000000000" "a" "b"
    (by decide) (by decide) (by decide) (by decide) (by decide)
    (by decide) (by decide)

end CallStack
